/-
Verification of the Interoperability blockchain repository
(src/mpi/multiblockchainDP.py, src/single_node/basicBlockchain.py,
src/single_node/blockchainDynamicPersist.py).

Shallow embedding: the Python classes become Lean structures, the methods
become pure functions, exceptions become Except values, and the MPI
collectives of the reconciliation protocol are modelled by explicit lists
of per-member states.  A central modelling point: none of the classes
defines a custom hash, so the builtin hash() used by add_block,
verify_chain and Miner.mine is CPython's default object hash, a function
of the object's identity (id) alone, independent of every attribute.
Objects therefore carry an explicit identity field, oid.
-/
import Mathlib

set_option maxRecDepth 4000

/-- A dynamically typed Python value as it occurs in the hash fields:
previous_block_hash and latest_block_hash start as the string "" and are
later overwritten with ints (results of hash()).  Python == between an
int and a str is False, which the derived equality reproduces. -/
inductive PyVal where
  | pstr : String → PyVal
  | pint : Int → PyVal
deriving DecidableEq

/-- Python exceptions raised by the modelled code paths. -/
inductive PyErr where
  | indexError
  | zeroDivisionError
  | assertionError (msg : String)
deriving DecidableEq

/-- Transaction (multiblockchainDP.py lines 60-99): sender, recipient,
value and creation time.  The class defines no custom equality or hash;
oid records the object identity.  value is dynamically typed (int, bool
as 0/1, or float index in the model). -/
structure Transaction where
  oid : Nat
  sender : String
  recipient : String
  value : PyVal
  time : Nat
deriving DecidableEq

/-- MemPool (multiblockchainDP.py lines 128-164): a FIFO queue of
transactions backed by a Python list. -/
structure MemPool where
  transactions : List Transaction
deriving DecidableEq

/-- MemPool.get_size (line 163-164). -/
def MemPool.get_size (mp : MemPool) : Nat :=
  mp.transactions.length

/-- MemPool.add_transaction (line 157-158): list.append. -/
def MemPool.add_transaction (mp : MemPool) (t : Transaction) : MemPool :=
  ⟨mp.transactions ++ [t]⟩

/-- MemPool.pull_transaction (lines 159-162): reads self.transactions[0]
(which raises IndexError on an empty list), pops it, returns it. -/
def MemPool.pull_transaction (mp : MemPool) : Except PyErr (Transaction × MemPool) :=
  match mp.transactions with
  | [] => Except.error PyErr.indexError
  | t :: rest => Except.ok (t, ⟨rest⟩)

/-- Block (multiblockchainDP.py lines 167-210).  oid is the CPython
object identity (see pyHash). -/
structure Block where
  oid : Nat
  verified_transactions : List Transaction
  previous_block_hash : PyVal
  nonce : PyVal
  block_height : Nat
deriving DecidableEq

/-- Block.__init__ (lines 194-198): empty transactions, empty
previous_block_hash and nonce strings, height 0.  Used as the getD
default standing in for Python's IndexError, which never fires on the
ledgers the program builds (chainLength = len(chain), proved below). -/
def Block.init : Block :=
  { oid := 0
    verified_transactions := []
    previous_block_hash := PyVal.pstr ""
    nonce := PyVal.pstr ""
    block_height := 0 }

/-- CPython's default object.__hash__, the hash() applied to Block values
in add_block, verify_chain and Miner.mine: Block defines no __hash__, so
the result is derived from id(obj) alone and is unchanged by any later
mutation of the object's attributes. -/
def pyHash (b : Block) : Int :=
  (b.oid : Int)

/-- Block.add_transaction (lines 204-205). -/
def Block.add_transaction (b : Block) (t : Transaction) : Block :=
  { b with verified_transactions := b.verified_transactions ++ [t] }

/-- Blockchain (multiblockchainDP.py lines 213-309). -/
structure Blockchain where
  latest_block_hash : PyVal
  chainLength : Nat
  chain : List Block
  difficulty : Nat
deriving DecidableEq

/-- Blockchain.__init__ (lines 246-250). -/
def Blockchain.init : Blockchain :=
  { latest_block_hash := PyVal.pstr ""
    chainLength := 0
    chain := []
    difficulty := 2 }

/-- Blockchain.add_block (lines 251-261): appends the block, records
hash(newBlock) as latest_block_hash, increments chainLength and then sets
newBlock.block_height to the new length.  Python mutates the one object
that was just appended, so the chain's last element carries the updated
height; pyHash is identity-based and unaffected by that mutation.  The
fromFile flag only gates persist_block, an external file append, and is
dropped from the pure model. -/
def Blockchain.add_block (bc : Blockchain) (newBlock : Block) : Blockchain :=
  let appended := { newBlock with block_height := bc.chainLength + 1 }
  { bc with
      chain := bc.chain ++ [appended]
      latest_block_hash := PyVal.pint (pyHash appended)
      chainLength := bc.chainLength + 1 }

/-- Blockchain.get_chain_length (lines 262-263). -/
def Blockchain.get_chain_length (bc : Blockchain) : Nat :=
  bc.chainLength

/-- Blockchain.get_last_hash (lines 264-265). -/
def Blockchain.get_last_hash (bc : Blockchain) : PyVal :=
  bc.latest_block_hash

/-- Blockchain.verify_chain (lines 271-278, identical in
basicBlockchain.py lines 144-149): for i in range(0, chainLength-1),
compare hash(chain[i]) with chain[i+1].previous_block_hash; False on the
first mismatch, True otherwise. -/
def Blockchain.verify_chain (bc : Blockchain) : Bool :=
  (List.range (bc.chainLength - 1)).all fun i =>
    PyVal.pint (pyHash (bc.chain.getD i Block.init))
      == (bc.chain.getD (i + 1) Block.init).previous_block_hash

/-- Spec-side predicate for claim C2, written from the spec's words:
every adjacent pair of blocks is hash-linked, hash(chain[i]) equal to
chain[i+1].previousHash. -/
def chainLinkedB : List Block → Bool
  | [] => true
  | [_] => true
  | b1 :: b2 :: rest =>
      (PyVal.pint (pyHash b1) == b2.previous_block_hash) && chainLinkedB (b2 :: rest)

/-- In-place mutation of one block's transaction list (the tampering of
claim C2): chain[i].verified_transactions = txs.  Out-of-range indices
leave the list unchanged (Python would raise there; the claims only
exercise in-range indices). -/
def setBlockTxs (bc : Blockchain) (i : Nat) (txs : List Transaction) : Blockchain :=
  { bc with
      chain := bc.chain.set i
        { bc.chain.getD i Block.init with verified_transactions := txs } }

/-- Blockchain.read_blockchain (multiblockchainDP.py lines 279-294, the
same loop in basicBlockchain.py lines 239-252 and
blockchainDynamicPersist.py lines 153-166), file-exists branch.  The
Python loop is: i = 0; while i < 5: try pickle.load except EOFError
break else add_block(block, True).  The body never increments i, so the
guard is re-tested with i = 0 forever; records is the sequence of
pickled blocks in the file and the empty list is the EOFError. -/
def readLoop : Nat → List Block → Blockchain → Blockchain
  | _, [], bc => bc
  | i, b :: rest, bc => if i < 5 then readLoop i rest (bc.add_block b) else bc

/-- Blockchain.read_blockchain entry point: the loop starts at i = 0. -/
def Blockchain.read_blockchain (bc : Blockchain) (records : List Block) : Blockchain :=
  readLoop 0 records bc

/-- The string Miner.mine feeds to sha256 at counter value i
(multiblockchainDP.py line 348, blockchainDynamicPersist.py line 182):
str(hash(message)) + str(i), where message is the candidate Block object,
so hash(message) is the identity-based pyHash. -/
def minePayload (b : Block) (i : Nat) : String :=
  toString (pyHash b) ++ toString i

/-- The difficulty target string '0' * difficulty (line 336). -/
def zeros (d : Nat) : String :=
  String.mk (List.replicate d '0')

/-- Python str.startswith(pre) (lines 349 and 161): the character
sequence of pre is an initial segment of the character sequence of s. -/
def pyStartsWith (s pre : String) : Bool :=
  List.isPrefixOf pre.data s.data

/-- The for-i-in-range(10000) scan of the single-node Miner.mine
(basicBlockchain.py lines 159-163, blockchainDynamicPersist.py lines
181-185).  h is the external hashlib sha256 hexdigest function, passed
in as a parameter; i is the loop counter, fuel the remaining
iterations.  Falling off the end of the range returns Python None,
modelled as none. -/
def mineScanSN (h : String → String) (b : Block) (pfx : String) : Nat → Nat → Option String
  | _, 0 => none
  | i, fuel + 1 =>
    let digest := h (minePayload b i)
    if pyStartsWith digest pfx then some digest else mineScanSN h b pfx (i + 1) fuel

/-- Single-node Miner.mine (basicBlockchain.py lines 155-163): assert
difficulty >= 1 raises AssertionError, then scans 10000 counters. -/
def mineSingle (h : String → String) (message : Block) (difficulty : Nat) :
    Except PyErr (Option String) :=
  if 1 ≤ difficulty then
    Except.ok (mineScanSN h message (zeros difficulty) 0 10000)
  else
    Except.error (PyErr.assertionError "Difficulty is invalid")

/-- The while-found-is-False loop of the MPI Miner.mine
(multiblockchainDP.py lines 340-357).  incoming i models the iprobe/recv
pair: the digest a peer's send has made available at iteration i, if
any; accepting one returns foundLocal = false.  Otherwise the node hashes
its own candidate and, on success, returns foundLocal = true (the sends
to the peers are message-passing side effects outside the returned
value).  The Python loop is unbounded; fuel cuts it off, with none
meaning the loop was still running. -/
def mineScanMPI (h : String → String) (incoming : Nat → Option String) (b : Block)
    (pfx : String) : Nat → Nat → Option (String × Bool)
  | _, 0 => none
  | i, fuel + 1 =>
    match incoming i with
    | some d => some (d, false)
    | none =>
      let digest := h (minePayload b i)
      if pyStartsWith digest pfx then some (digest, true)
      else mineScanMPI h incoming b pfx (i + 1) fuel

/-- MPI Miner.mine (multiblockchainDP.py lines 331-358): assert
difficulty >= 1, then race the scan against incoming winner messages. -/
def mine (h : String → String) (incoming : Nat → Option String) (fuel : Nat)
    (message : Block) (difficulty : Nat) : Except PyErr (Option (String × Bool)) :=
  if 1 ≤ difficulty then
    Except.ok (mineScanMPI h incoming message (zeros difficulty) 0 fuel)
  else
    Except.error (PyErr.assertionError "Difficulty is invalid")

/-- The for-i-in-range(forRange) loop of main that pulls transactions
from the MemPool into the new block (multiblockchainDP.py lines 543-544,
blockchainDynamicPersist.py lines 249-250), with pull_transaction's
possible IndexError threaded through. -/
def pullLoop : Nat → MemPool → Block → Except PyErr (Block × MemPool)
  | 0, mp, b => Except.ok (b, mp)
  | n + 1, mp, b =>
    match mp.pull_transaction with
    | Except.error e => Except.error e
    | Except.ok (t, mp') => pullLoop n mp' (b.add_transaction t)

/-- The mining loop of the MPI main (multiblockchainDP.py lines 537-546;
blockchainDynamicPersist.py lines 244-252 is the same loop without the
race): while the MemPool is nonempty, build a fresh Block() — whose
previous_block_hash is never assigned anywhere in this flow and so stays
"" — move forRange = min(3, size) transactions into it FIFO, attach the
digest Miner.mine returned as the nonce, and add_block it.  dg is the
digest each round's mine call settles on (its value never influences the
control flow of the loop); oid numbers the freshly allocated Block
objects. -/
def mpiMineLoop (dg : Nat → String) (oid : Nat) : List Transaction → Blockchain → Blockchain
  | [], bc => bc
  | [t1], bc =>
      let b : Block := { oid := oid, verified_transactions := [t1],
                         previous_block_hash := PyVal.pstr "",
                         nonce := PyVal.pstr (dg bc.chainLength), block_height := 0 }
      bc.add_block b
  | [t1, t2], bc =>
      let b : Block := { oid := oid, verified_transactions := [t1, t2],
                         previous_block_hash := PyVal.pstr "",
                         nonce := PyVal.pstr (dg bc.chainLength), block_height := 0 }
      bc.add_block b
  | t1 :: t2 :: t3 :: rest, bc =>
      let b : Block := { oid := oid, verified_transactions := [t1, t2, t3],
                         previous_block_hash := PyVal.pstr "",
                         nonce := PyVal.pstr (dg bc.chainLength), block_height := 0 }
      mpiMineLoop dg (oid + 1) rest (bc.add_block b)

/-- The for-i-length-in-enumerate scan of synchronize_ledgers
(multiblockchainDP.py lines 439-444): starting from the member's own
(localLength, subcommRank), replace the accumulator whenever a reported
length is strictly greater, remembering that member's index. -/
def scanLoop : Nat → List Nat → Nat × Nat → Nat × Nat
  | _, [], acc => acc
  | i, len :: rest, acc =>
      scanLoop (i + 1) rest (if acc.1 < len then (len, i) else acc)

/-- needSync of synchronize_ledgers (line 445): the member syncs when the
scan's winning rank is not its own. -/
def needSync (lengths : List Nat) (localLength localRank : Nat) : Bool :=
  (scanLoop 0 lengths (localLength, localRank)).2 != localRank

/-- synchronize_ledgers (multiblockchainDP.py lines 432-454) over the
whole group at once: ledgers lists every member's local Blockchain in
subcomm rank order.  allgather gives every member the same length list;
each member r runs the scan from its own (length, r) and, when flagged,
replaces its ledger wholesale with the copy rank 0 sends — rank 0's
ledger at send time, ledgers[0].  (A flagged rank 0 sends to and
receives from itself, keeping its own copy.) -/
def synchronize_ledgers (ledgers : List Blockchain) : List Blockchain :=
  let lengths := ledgers.map Blockchain.get_chain_length
  (List.range ledgers.length).map fun r =>
    let bc := ledgers.getD r Blockchain.init
    if needSync lengths bc.get_chain_length r then ledgers.headD bc else bc

/-- check_cla (multiblockchainDP.py lines 383-384): len(sys.argv) == 3. -/
def check_cla (argc : Nat) : Bool :=
  argc == 3

/-- Observable events of one process's startup, distinguishing the
collective operations from the operator-visible usage report.  The body
of the group protocol (hydration, reconciliation, broadcasts, mining) is
summarised as one groupProtocol event: the claims about startup only ask
whether it is entered and what precedes it. -/
inductive Event where
  | split
  | barrier
  | usageMessage
  | groupProtocol
deriving DecidableEq

/-- create_subcomm (multiblockchainDP.py lines 473-477): color = rank %
numBlockchains — Python floor-mod, ZeroDivisionError when the group
count is 0 — followed by comm.Split.  Returns the color; the caller's
trace records the Split itself. -/
def create_subcomm (rank numBlockchains : Int) : Except PyErr Int :=
  if numBlockchains = 0 then Except.error PyErr.zeroDivisionError
  else Except.ok (Int.fmod rank numBlockchains)

/-- The process's event trace (multiblockchainDP.py lines 479-513):
module-level code runs create_subcomm — hence comm.Split — and
comm.barrier before main is ever entered; main then tests check_cla and
either prints the usage message and returns, or enters the group
protocol. -/
def programTrace (rank numBlockchains : Int) (argc : Nat) : Except PyErr (List Event) :=
  match create_subcomm rank numBlockchains with
  | Except.error e => Except.error e
  | Except.ok _ =>
      Except.ok ([Event.split, Event.barrier] ++
        (if check_cla argc then [Event.groupProtocol] else [Event.usageMessage]))

/-- A ledger grown from empty by a sequence of add_block calls, the
reachable states of claim C9. -/
def buildChain (bs : List Block) : Blockchain :=
  bs.foldl Blockchain.add_block Blockchain.init

/-- A concrete transaction, for the closed instances below. -/
def mkTx (k : Nat) : Transaction :=
  { oid := 50 + k, sender := "c0", recipient := "c1", value := PyVal.pint 1, time := k }

/-- Five pending transactions: the 2-clients-5-transactions scenario. -/
def pool5 : List Transaction :=
  [mkTx 0, mkTx 1, mkTx 2, mkTx 3, mkTx 4]

/-- A fixed digest outcome for the concrete mining runs (its value never
influences the mining loop's control flow). -/
def dgConst : Nat → String :=
  fun _ => "0d1g2e3s"

/-- Six persisted block records, one more than the intended hydration
bound of 5. -/
def sixBlocks : List Block :=
  (List.range 6).map fun k =>
    { oid := 200 + k, verified_transactions := [], previous_block_hash := PyVal.pstr "",
      nonce := PyVal.pstr "", block_height := 0 }

/-- A two-block ledger whose links hold: blockB.previous_block_hash is
hash(blockA) = 1. -/
def blockA : Block :=
  { oid := 1, verified_transactions := [mkTx 0], previous_block_hash := PyVal.pstr "",
    nonce := PyVal.pstr "n1", block_height := 1 }

/-- Second block of the linked ledger, pointing at hash(blockA). -/
def blockB : Block :=
  { oid := 2, verified_transactions := [mkTx 1], previous_block_hash := PyVal.pint 1,
    nonce := PyVal.pstr "n2", block_height := 2 }

/-- The linked two-block ledger itself. -/
def bcLinked : Blockchain :=
  { latest_block_hash := PyVal.pint 2, chainLength := 2, chain := [blockA, blockB],
    difficulty := 2 }

/-- Two candidate Block objects with identical transactions and identical
(empty) previousHash but distinct object identities. -/
def candA : Block :=
  { oid := 1, verified_transactions := [mkTx 0], previous_block_hash := PyVal.pstr "",
    nonce := PyVal.pstr "", block_height := 0 }

/-- The second such candidate: only the object identity differs. -/
def candB : Block :=
  { oid := 2, verified_transactions := [mkTx 0], previous_block_hash := PyVal.pstr "",
    nonce := PyVal.pstr "", block_height := 0 }

/-- A ledger of n contentless blocks grown by add_block, for the
reconciliation instances. -/
def mkChain (first n : Nat) : Blockchain :=
  buildChain ((List.range n).map fun k =>
    { oid := first + k, verified_transactions := [], previous_block_hash := PyVal.pstr "",
      nonce := PyVal.pstr "", block_height := 0 })

/-- A three-member group whose rank-0 authority holds a longest ledger
(lengths 3, 1, 3). -/
def ledgers3 : List Blockchain :=
  [mkChain 300 3, mkChain 310 1, mkChain 320 3]

/-- Two concrete blocks appended in order, for the ledger-invariant
instance. -/
def demoBlocks : List Block :=
  [{ oid := 7, verified_transactions := [mkTx 0], previous_block_hash := PyVal.pstr "",
     nonce := PyVal.pstr "", block_height := 0 },
   { oid := 8, verified_transactions := [mkTx 1], previous_block_hash := PyVal.pstr "",
     nonce := PyVal.pstr "", block_height := 0 }]

/-- The second demo block as it sits in the ledger, height assigned by
the second add_block. -/
def demoLast : Block :=
  { oid := 8, verified_transactions := [mkTx 1], previous_block_hash := PyVal.pstr "",
    nonce := PyVal.pstr "", block_height := 2 }

theorem list_all_pointwise {α : Type} (l : List α) (p q : α → Bool)
    (h : ∀ x ∈ l, p x = q x) : l.all p = l.all q := by
  induction l with
  | nil => rfl
  | cons a t ih =>
      simp only [List.all_cons]
      rw [h a (by simp), ih fun x hx => h x (by simp [hx])]

theorem getD_set_eq {α : Type} :
    ∀ (l : List α) (i j : Nat) (a d : α),
      (l.set i a).getD j d = if i = j ∧ j < l.length then a else l.getD j d
  | [], i, j, a, d => by simp
  | x :: t, 0, 0, a, d => by simp
  | x :: t, 0, j + 1, a, d => by simp [List.getD_cons_succ]
  | x :: t, i + 1, 0, a, d => by simp
  | x :: t, i + 1, j + 1, a, d => by
      simp only [List.set, List.getD_cons_succ, List.length_cons]
      rw [getD_set_eq t i j a d]
      by_cases h : i = j ∧ j < t.length
      · rw [if_pos h, if_pos (by omega)]
      · rw [if_neg h, if_neg (by omega)]

theorem verifyAux_eq_chainLinkedB :
    ∀ l : List Block,
      ((List.range (l.length - 1)).all fun i =>
          PyVal.pint (pyHash (l.getD i Block.init))
            == (l.getD (i + 1) Block.init).previous_block_hash)
        = chainLinkedB l
  | [] => by simp [chainLinkedB]
  | [b] => by simp [chainLinkedB]
  | b1 :: b2 :: rest => by
      have ih := verifyAux_eq_chainLinkedB (b2 :: rest)
      simp only [List.length_cons, Nat.add_sub_cancel] at ih ⊢
      rw [List.range_succ_eq_map]
      simp only [List.all_cons, List.all_map, List.getD_cons_zero, List.getD_cons_succ]
      simp only [List.getD_cons_zero, List.getD_cons_succ] at ih
      have hpt : ∀ x ∈ List.range rest.length,
          ((fun i => PyVal.pint (pyHash ((b1 :: b2 :: rest).getD i Block.init))
              == ((b2 :: rest).getD i Block.init).previous_block_hash) ∘ Nat.succ) x
            = (fun i => PyVal.pint (pyHash ((b2 :: rest).getD i Block.init))
              == (rest.getD i Block.init).previous_block_hash) x := by
        intro x _
        simp [Function.comp, List.getD_cons_succ]
      rw [list_all_pointwise _ _ _ hpt, ih]
      simp [chainLinkedB]

theorem verify_chain_eq_chainLinkedB (bc : Blockchain)
    (hlen : bc.chainLength = bc.chain.length) :
    bc.verify_chain = chainLinkedB bc.chain := by
  unfold Blockchain.verify_chain
  rw [hlen, verifyAux_eq_chainLinkedB]

theorem readLoop_chainLength : ∀ (records : List Block) (bc : Blockchain),
    (readLoop 0 records bc).chainLength = bc.chainLength + records.length
  | [], bc => by simp [readLoop]
  | b :: rest, bc => by
      have ih := readLoop_chainLength rest (bc.add_block b)
      simp only [readLoop, if_pos (by omega : (0 : Nat) < 5), List.length_cons]
      rw [ih]
      simp [Blockchain.add_block]
      omega

/-- Claim C1: the spec asserts the mined ledger satisfies the chain-link
invariant, hash(chain[i]) equal to chain[i+1].previousHash with only the
genesis previousHash empty.  The MPI mining flow (main, lines 537-546)
never assigns newBlock.previous_block_hash, so every mined block keeps
the empty string from Block.__init__: on the 5-transaction run the
second block's previousHash is "" and verify_chain rejects the ledger
the flow itself produced.  This contradicts the Block class's own
documentation of previous_block_hash as the link to the previous block
(and the sibling single-node flow, basicBlockchain.py line 212, which
does assign it), so it is recorded as a code bug. -/
theorem mpi_flow_chain_unlinked :
    (mpiMineLoop dgConst 100 pool5 Blockchain.init).chainLength = 2
      ∧ ((mpiMineLoop dgConst 100 pool5 Blockchain.init).chain.getD 1 Block.init).previous_block_hash
          = PyVal.pstr ""
      ∧ (mpiMineLoop dgConst 100 pool5 Blockchain.init).verify_chain = false := by
  decide

/-- Claim C5: the spec asserts read_blockchain appends at most 5
(maxHydrate) records.  The loop guard is while i < 5 but the body never
increments i, so the guard can never fail and hydration stops only at
EOFError: a 6-record file yields a 6-block ledger, and in general every
record of the file is appended.  The guard's evident intent (and the
spec) say 5, so this is recorded as a code bug. -/
theorem read_blockchain_unbounded :
    (Blockchain.init.read_blockchain sixBlocks).chainLength = 6
      ∧ ∀ (records : List Block) (bc : Blockchain),
          (bc.read_blockchain records).chainLength = bc.chainLength + records.length :=
  ⟨by decide, fun records bc => readLoop_chainLength records bc⟩

/-- Claim C3, counterexample: the claim says the payload hashed during
mining is a function of exactly the block's transactions and
previousHash.  candA and candB have identical transaction lists and
identical previousHash, yet Miner.mine hashes different payloads for
them at counter 0, because the payload str(hash(message)) + str(i) is
built from the identity-based object hash. -/
theorem mine_payload_differs_for_equal_content :
    candA.verified_transactions = candB.verified_transactions
      ∧ candA.previous_block_hash = candB.previous_block_hash
      ∧ minePayload candA 0 ≠ minePayload candB 0 := by
  decide

/-- Claim C3 as amended: the payload Miner.mine hashes is a function of
the candidate Block object's identity and the nonce counter alone —
changing the block's nonce or height (as the claim says) but also its
transactions or previousHash (which the claim denies) leaves the hashed
payload unchanged. -/
theorem mine_payload_depends_only_on_object_identity
    (b : Block) (txs : List Transaction) (ph n : PyVal) (hgt i : Nat) :
    minePayload { b with verified_transactions := txs, previous_block_hash := ph,
                         nonce := n, block_height := hgt } i = minePayload b i := rfl

theorem verify_chain_setBlockTxs (bc : Blockchain) (i : Nat) (txs : List Transaction) :
    (setBlockTxs bc i txs).verify_chain = bc.verify_chain := by
  unfold Blockchain.verify_chain setBlockTxs
  apply list_all_pointwise
  intro x _
  rw [getD_set_eq, getD_set_eq]
  by_cases h1 : i = x ∧ x < bc.chain.length
  · obtain ⟨rfl, h1b⟩ := h1
    rw [if_pos ⟨rfl, h1b⟩, if_neg (by omega)]
    simp [pyHash]
  · by_cases h2 : i = x + 1 ∧ x + 1 < bc.chain.length
    · obtain ⟨rfl, h2b⟩ := h2
      rw [if_neg h1, if_pos ⟨rfl, h2b⟩]
    · rw [if_neg h1, if_neg h2]

/-- Claim C2, counterexample: the claim says mutating any block's
transaction list without re-mining makes verify_chain return false.  On
the linked two-block ledger bcLinked, replacing block 0's transaction
list changes the ledger's transactions but verify_chain still returns
true: the hash() it compares is the identity-based object hash, which
ignores every attribute. -/
theorem verify_chain_ignores_transaction_mutation :
    bcLinked.verify_chain = true
      ∧ (setBlockTxs bcLinked 0 [mkTx 4]).chain.map Block.verified_transactions
          ≠ bcLinked.chain.map Block.verified_transactions
      ∧ (setBlockTxs bcLinked 0 [mkTx 4]).verify_chain = true := by
  decide

/-- Claim C2 as amended: for every ledger with consistent bookkeeping
(chainLength equal to the number of blocks, which add_block maintains),
verify_chain returns true iff every adjacent pair of blocks is
hash-linked, hash(chain[i]) equal to chain[i+1].previousHash — but with
hash() the interpreter's identity-based object hash, so mutating a
block's transaction list never changes verify_chain's verdict. -/
theorem verify_chain_iff_hash_linked (bc : Blockchain)
    (hlen : bc.chainLength = bc.chain.length) :
    (bc.verify_chain = true ↔ chainLinkedB bc.chain = true)
      ∧ ∀ (i : Nat) (txs : List Transaction),
          (setBlockTxs bc i txs).verify_chain = bc.verify_chain :=
  ⟨by rw [verify_chain_eq_chainLinkedB bc hlen], fun i txs => verify_chain_setBlockTxs bc i txs⟩

/-- Closed instance of the amended claim C2 at the concrete linked
ledger. -/
theorem verify_chain_iff_hash_linked_witness :
    bcLinked.chainLength = bcLinked.chain.length
      ∧ (bcLinked.verify_chain = true ↔ chainLinkedB bcLinked.chain = true) :=
  ⟨by decide, (verify_chain_iff_hash_linked bcLinked (by decide)).1⟩

theorem range'_concat_one (s n : Nat) : List.range' s (n + 1) = List.range' s n ++ [s + n] := by
  have h : List.range' s (n + 1) 1 = List.range' s n 1 ++ [s + 1 * n] :=
    List.range'_concat s n
  simpa using h

theorem add_block_inv (bc : Blockchain) (b : Block)
    (h1 : bc.chainLength = bc.chain.length)
    (h2 : bc.chain.map Block.block_height = List.range' 1 bc.chain.length) :
    (bc.add_block b).chainLength = (bc.add_block b).chain.length
      ∧ (bc.add_block b).chain.map Block.block_height
          = List.range' 1 (bc.add_block b).chain.length
      ∧ ∀ lb, (bc.add_block b).chain.getLast? = some lb →
          (bc.add_block b).latest_block_hash = PyVal.pint (pyHash lb) := by
  unfold Blockchain.add_block
  simp only [List.length_append, List.length_cons, List.length_nil, List.map_append,
    List.map_cons, List.map_nil]
  refine ⟨by omega, ?_, ?_⟩
  · rw [h2, h1, range'_concat_one]
    simp [Nat.add_comm]
  · intro lb hlb
    rw [List.getLast?_concat] at hlb
    cases hlb
    rfl

theorem foldl_add_block_inv : ∀ (bs : List Block) (bc : Blockchain),
    bc.chainLength = bc.chain.length →
    bc.chain.map Block.block_height = List.range' 1 bc.chain.length →
    (∀ lb, bc.chain.getLast? = some lb → bc.latest_block_hash = PyVal.pint (pyHash lb)) →
    ((bs.foldl Blockchain.add_block bc).chainLength
        = (bs.foldl Blockchain.add_block bc).chain.length
      ∧ (bs.foldl Blockchain.add_block bc).chain.map Block.block_height
          = List.range' 1 (bs.foldl Blockchain.add_block bc).chain.length
      ∧ ∀ lb, (bs.foldl Blockchain.add_block bc).chain.getLast? = some lb →
          (bs.foldl Blockchain.add_block bc).latest_block_hash = PyVal.pint (pyHash lb))
  | [], bc, h1, h2, h3 => ⟨h1, h2, h3⟩
  | b :: rest, bc, h1, h2, _ => by
      have step := add_block_inv bc b h1 h2
      exact foldl_add_block_inv rest (bc.add_block b) step.1 step.2.1 step.2.2

/-- Claim C9: a Blockchain grown from empty by add_block keeps
chainLength equal to the number of blocks in chain, assigns the i-th
appended block the height i+1 (heights 1, 2, ... in append order,
written with range' 1), and keeps latest_block_hash equal to the hash of
the most recently appended block. -/
theorem buildChain_ledger_invariants (bs : List Block) :
    (buildChain bs).chainLength = (buildChain bs).chain.length
      ∧ (buildChain bs).chain.map Block.block_height
          = List.range' 1 (buildChain bs).chain.length
      ∧ ∀ lb, (buildChain bs).chain.getLast? = some lb →
          (buildChain bs).latest_block_hash = PyVal.pint (pyHash lb) :=
  foldl_add_block_inv bs Blockchain.init rfl rfl (fun lb h => by simp [Blockchain.init] at h)

/-- Closed instance of claim C9 on a concrete two-block ledger: the
recorded latest_block_hash is the hash of the last appended block. -/
theorem buildChain_ledger_invariants_witness :
    (buildChain demoBlocks).chain.getLast? = some demoLast
      ∧ (buildChain demoBlocks).latest_block_hash = PyVal.pint (pyHash demoLast) :=
  ⟨by decide, (buildChain_ledger_invariants demoBlocks).2.2 demoLast (by decide)⟩

theorem mpiMineLoop_chainLength (dg : Nat → String) :
    ∀ (oid : Nat) (pool : List Transaction) (bc : Blockchain),
      (mpiMineLoop dg oid pool bc).chainLength = bc.chainLength + (pool.length + 2) / 3
  | _, [], bc => by simp [mpiMineLoop]
  | _, [t1], bc => by simp [mpiMineLoop, Blockchain.add_block]
  | _, [t1, t2], bc => by simp [mpiMineLoop, Blockchain.add_block]
  | oid, t1 :: t2 :: t3 :: rest, bc => by
      rw [mpiMineLoop, mpiMineLoop_chainLength dg (oid + 1) rest _]
      simp only [Blockchain.add_block, List.length_cons]
      omega

theorem mpiMineLoop_lenEq (dg : Nat → String) :
    ∀ (oid : Nat) (pool : List Transaction) (bc : Blockchain),
      bc.chainLength = bc.chain.length →
      (mpiMineLoop dg oid pool bc).chainLength = (mpiMineLoop dg oid pool bc).chain.length
  | _, [], bc, h => h
  | _, [t1], bc, h => by
      simp [mpiMineLoop, Blockchain.add_block, h]
  | _, [t1, t2], bc, h => by
      simp [mpiMineLoop, Blockchain.add_block, h]
  | oid, t1 :: t2 :: t3 :: rest, bc, h => by
      rw [mpiMineLoop]
      exact mpiMineLoop_lenEq dg (oid + 1) rest _
        (by simp [Blockchain.add_block, h])

theorem mpiMineLoop_blocks (dg : Nat → String) :
    ∀ (oid : Nat) (pool : List Transaction) (bc : Blockchain),
      (∀ b ∈ bc.chain, b.verified_transactions.length ≤ 3) →
      ∀ b ∈ (mpiMineLoop dg oid pool bc).chain, b.verified_transactions.length ≤ 3
  | _, [], _, h => h
  | _, [t1], bc, h => by
      intro b hb
      simp [mpiMineLoop, Blockchain.add_block] at hb
      rcases hb with hb | hb
      · exact h b hb
      · simp [hb]
  | _, [t1, t2], bc, h => by
      intro b hb
      simp [mpiMineLoop, Blockchain.add_block] at hb
      rcases hb with hb | hb
      · exact h b hb
      · simp [hb]
  | oid, t1 :: t2 :: t3 :: rest, bc, h => by
      rw [mpiMineLoop]
      refine mpiMineLoop_blocks dg (oid + 1) rest _ ?_
      intro b hb
      simp [Blockchain.add_block] at hb
      rcases hb with hb | hb
      · exact h b hb
      · simp [hb]

/-- Claim C8: starting from an empty ledger, the mining loop drains the
MemPool into blocks of at most 3 transactions and produces exactly
ceil(T/3) = (T+2)/3 blocks, the final ledger length; in particular 5
transactions yield 2 blocks (see the closed instance). -/
theorem mining_loop_block_count (dg : Nat → String) (oid : Nat) (pool : List Transaction)
    (_hT : 0 < pool.length) :
    (mpiMineLoop dg oid pool Blockchain.init).chainLength = (pool.length + 2) / 3
      ∧ (mpiMineLoop dg oid pool Blockchain.init).chain.length = (pool.length + 2) / 3
      ∧ ∀ b ∈ (mpiMineLoop dg oid pool Blockchain.init).chain,
          b.verified_transactions.length ≤ 3 := by
  have h1 := mpiMineLoop_chainLength dg oid pool Blockchain.init
  have h2 := mpiMineLoop_lenEq dg oid pool Blockchain.init rfl
  refine ⟨by simpa [Blockchain.init] using h1, by rw [← h2]; simpa [Blockchain.init] using h1, ?_⟩
  exact mpiMineLoop_blocks dg oid pool Blockchain.init (by simp [Blockchain.init])

/-- Closed instance of claim C8: the 5-transaction pool yields exactly
ceil(5/3) = 2 blocks. -/
theorem mining_loop_block_count_witness :
    0 < pool5.length ∧ (pool5.length + 2) / 3 = 2
      ∧ (mpiMineLoop dgConst 100 pool5 Blockchain.init).chainLength = (pool5.length + 2) / 3 :=
  ⟨by decide, by decide, (mining_loop_block_count dgConst 100 pool5 (by decide)).1⟩


theorem mineScanSN_startsWith (h : String → String) (b : Block) (pfx : String) :
    ∀ (i fuel : Nat) (dg : String),
      mineScanSN h b pfx i fuel = some dg → pyStartsWith dg pfx = true
  | i, 0, dg => by simp [mineScanSN]
  | i, fuel + 1, dg => by
      intro heq
      rw [mineScanSN] at heq
      by_cases hc : pyStartsWith (h (minePayload b i)) pfx
      · simp only [hc, if_true] at heq
        cases heq
        exact hc
      · simp only [hc, if_false, Bool.false_eq_true] at heq
        exact mineScanSN_startsWith h b pfx (i + 1) fuel dg heq

theorem mineScanMPI_startsWith (h : String → String) (incoming : Nat → Option String)
    (b : Block) (pfx : String)
    (hin : ∀ i s, incoming i = some s → pyStartsWith s pfx = true) :
    ∀ (i fuel : Nat) (dg : String) (loc : Bool),
      mineScanMPI h incoming b pfx i fuel = some (dg, loc) → pyStartsWith dg pfx = true
  | i, 0, dg, loc => by simp [mineScanMPI]
  | i, fuel + 1, dg, loc => by
      intro heq
      rw [mineScanMPI] at heq
      cases hin0 : incoming i with
      | some s =>
          rw [hin0] at heq
          have hs := hin i s hin0
          cases heq
          exact hs
      | none =>
          rw [hin0] at heq
          by_cases hc : pyStartsWith (h (minePayload b i)) pfx
          · simp only [hc, if_true] at heq
            cases heq
            exact hc
          · simp only [hc, if_false, Bool.false_eq_true] at heq
            exact mineScanMPI_startsWith h incoming b pfx hin (i + 1) fuel dg loc heq

/-- Claim C7: for difficulty d >= 1, every digest Miner.mine returns
starts with d '0' characters — unconditionally in the single-node
bounded scan, and in the MPI race under the protocol's send-site
guarantee that peers only announce digests that passed the same
startswith check (lines 349-356); difficulty 0 trips the
assert difficulty >= 1 in both variants. -/
theorem mine_digest_leading_zeros (hfun : String → String) (b : Block) (d : Nat)
    (hd : 1 ≤ d) :
    (∀ dg, mineSingle hfun b d = Except.ok (some dg) → pyStartsWith dg (zeros d) = true)
      ∧ (∀ (incoming : Nat → Option String) (fuel : Nat) (dg : String) (loc : Bool),
          (∀ i s, incoming i = some s → pyStartsWith s (zeros d) = true) →
          mine hfun incoming fuel b d = Except.ok (some (dg, loc)) →
          pyStartsWith dg (zeros d) = true)
      ∧ mineSingle hfun b 0 = Except.error (PyErr.assertionError "Difficulty is invalid")
      ∧ ∀ (incoming : Nat → Option String) (fuel : Nat),
          mine hfun incoming fuel b 0
            = Except.error (PyErr.assertionError "Difficulty is invalid") := by
  refine ⟨?_, ?_, by simp [mineSingle], fun incoming fuel => by simp [mine]⟩
  · intro dg heq
    rw [mineSingle, if_pos hd] at heq
    injection heq with heq
    exact mineScanSN_startsWith hfun b (zeros d) 0 10000 dg heq
  · intro incoming fuel dg loc hin heq
    rw [mine, if_pos hd] at heq
    injection heq with heq
    exact mineScanMPI_startsWith hfun incoming b (zeros d) hin 0 fuel dg loc heq

/-- Closed instance of claim C7 with a constant digest function: the
returned digest "0" indeed starts with the difficulty-1 target, and
difficulty 0 is rejected. -/
theorem mine_digest_leading_zeros_witness :
    mineSingle (fun _ => "0") Block.init 1 = Except.ok (some "0")
      ∧ pyStartsWith "0" (zeros 1) = true
      ∧ mineSingle (fun _ => "0") Block.init 0
          = Except.error (PyErr.assertionError "Difficulty is invalid") :=
  have h1 : mineSingle (fun _ => "0") Block.init 1 = Except.ok (some "0") := rfl
  ⟨h1, (mine_digest_leading_zeros (fun _ => "0") Block.init 1 (by decide)).1 "0" h1,
    (mine_digest_leading_zeros (fun _ => "0") Block.init 1 (by decide)).2.2.1⟩

theorem pullLoop_ok : ∀ (n : Nat) (mp : MemPool) (b : Block), n ≤ mp.get_size →
    pullLoop n mp b
      = Except.ok
          ({ b with verified_transactions :=
              b.verified_transactions ++ mp.transactions.take n },
           ⟨mp.transactions.drop n⟩)
  | 0, mp, b, _ => by simp [pullLoop]
  | n + 1, ⟨[]⟩, b, h => by simp [MemPool.get_size] at h
  | n + 1, ⟨t :: rest⟩, b, h => by
      rw [pullLoop]
      simp only [MemPool.pull_transaction]
      rw [pullLoop_ok n ⟨rest⟩ (b.add_transaction t)
        (by simp only [MemPool.get_size, List.length_cons] at h ⊢; omega)]
      simp [Block.add_transaction, List.take_succ_cons, List.drop_succ_cons]

/-- Claim C10: pull_transaction on an empty MemPool raises IndexError
(self.transactions[0] on an empty list) rather than returning a
sentinel; on a nonempty pool it returns the oldest pending transaction
and removes it; and the pulls the mining loop performs are guarded — it
pulls forRange = min(3, get_size()) transactions only after the while
guard get_size() > 0, and that run of pulls never raises. -/
theorem pull_transaction_contract :
    MemPool.pull_transaction ⟨[]⟩ = Except.error PyErr.indexError
      ∧ (∀ (t : Transaction) (rest : List Transaction),
          MemPool.pull_transaction ⟨t :: rest⟩ = Except.ok (t, ⟨rest⟩))
      ∧ ∀ (mp : MemPool) (b : Block), 0 < mp.get_size →
          pullLoop (min 3 mp.get_size) mp b
            = Except.ok
                ({ b with verified_transactions :=
                    b.verified_transactions ++ mp.transactions.take (min 3 mp.get_size) },
                 ⟨mp.transactions.drop (min 3 mp.get_size)⟩) :=
  ⟨rfl, fun _ _ => rfl,
    fun mp b _ => pullLoop_ok (min 3 mp.get_size) mp b (Nat.min_le_right 3 mp.get_size)⟩

/-- Closed instance of claim C10: on the 5-transaction pool the guarded
run of pulls succeeds, moving the first three transactions into the
block. -/
theorem pull_transaction_contract_witness :
    0 < MemPool.get_size ⟨pool5⟩
      ∧ pullLoop (min 3 (MemPool.get_size ⟨pool5⟩)) ⟨pool5⟩ Block.init
          = Except.ok
              ({ Block.init with verified_transactions := pool5.take 3 },
               ⟨pool5.drop 3⟩) := by
  refine ⟨by decide, ?_⟩
  have h := pull_transaction_contract.2.2 ⟨pool5⟩ Block.init (by decide)
  exact h

theorem scanLoop_fst : ∀ (rest : List Nat) (i m mr : Nat),
    (scanLoop i rest (m, mr)).1 = rest.foldl max m
  | [], _, _, _ => rfl
  | len :: rest, i, m, mr => by
      rw [scanLoop]
      by_cases h : m < len
      · rw [if_pos h, scanLoop_fst rest (i + 1) len i, List.foldl_cons,
          Nat.max_eq_right (Nat.le_of_lt h)]
      · rw [if_neg h, scanLoop_fst rest (i + 1) m mr, List.foldl_cons,
          Nat.max_eq_left (Nat.le_of_not_lt h)]

theorem scanLoop_cases : ∀ (rest : List Nat) (i m mr : Nat),
    scanLoop i rest (m, mr) = (m, mr)
      ∨ ∃ j, j < rest.length
          ∧ scanLoop i rest (m, mr) = (rest.getD j 0, i + j) ∧ m < rest.getD j 0
  | [], _, _, _ => Or.inl rfl
  | len :: rest, i, m, mr => by
      rw [scanLoop]
      by_cases h : m < len
      · rw [if_pos h]
        rcases scanLoop_cases rest (i + 1) len i with heq | ⟨j, hj, heq, hlt⟩
        · right
          refine ⟨0, by simp, ?_, by simpa using h⟩
          rw [heq]
          simp
        · right
          refine ⟨j + 1, by simpa using Nat.succ_lt_succ hj, ?_, ?_⟩
          · rw [heq]
            simp only [List.getD_cons_succ, Prod.mk.injEq]
            exact ⟨by trivial, by omega⟩
          · simp only [List.getD_cons_succ]
            exact Nat.lt_trans h hlt
      · rw [if_neg h]
        rcases scanLoop_cases rest (i + 1) m mr with heq | ⟨j, hj, heq, hlt⟩
        · left
          exact heq
        · right
          refine ⟨j + 1, by simpa using Nat.succ_lt_succ hj, ?_, ?_⟩
          · rw [heq]
            simp only [List.getD_cons_succ, Prod.mk.injEq]
            exact ⟨by trivial, by omega⟩
          · simpa only [List.getD_cons_succ] using hlt

theorem foldl_max_init_le : ∀ (l : List Nat) (m : Nat), m ≤ l.foldl max m
  | [], _ => Nat.le_refl _
  | a :: l, m =>
      Nat.le_trans (Nat.le_max_left m a) (foldl_max_init_le l (max m a))

theorem le_foldl_max : ∀ (l : List Nat) (m x : Nat), x ∈ l → x ≤ l.foldl max m
  | [], _, _, hx => by simp at hx
  | a :: l, m, x, hx => by
      rw [List.foldl_cons]
      rcases List.mem_cons.mp hx with rfl | hx'
      · exact Nat.le_trans (Nat.le_max_right m x) (foldl_max_init_le l (max m x))
      · exact le_foldl_max l (max m a) x hx'

theorem needSync_false_imp_max (lengths : List Nat) (own r : Nat)
    (hown : lengths.getD r 0 = own)
    (hns : needSync lengths own r = false) : ∀ x ∈ lengths, x ≤ own := by
  unfold needSync at hns
  have h2 : (scanLoop 0 lengths (own, r)).2 = r := by simpa using hns
  rcases scanLoop_cases lengths 0 own r with heq | ⟨j, hj, heq, hlt⟩
  · have hfst : lengths.foldl max own = own := by
      rw [← scanLoop_fst lengths 0 own r, heq]
    intro x hx
    have := le_foldl_max lengths own x hx
    omega
  · exfalso
    rw [heq] at h2
    simp only [Nat.zero_add] at h2
    rw [h2, hown] at hlt
    omega

theorem needSync_true_of_lt (lengths : List Nat) (own r : Nat)
    (hown : lengths.getD r 0 = own)
    (hx : ∃ x ∈ lengths, own < x) : needSync lengths own r = true := by
  unfold needSync
  rcases scanLoop_cases lengths 0 own r with heq | ⟨j, hj, heq, hlt⟩
  · exfalso
    obtain ⟨x, hxm, hxlt⟩ := hx
    have hfst := scanLoop_fst lengths 0 own r
    rw [heq] at hfst
    have := le_foldl_max lengths own x hxm
    omega
  · rw [heq]
    simp only [bne_iff_ne, ne_eq, Nat.zero_add]
    intro hjr
    rw [hjr, hown] at hlt
    omega

theorem map_getD_len (ledgers : List Blockchain) (r : Nat) (hr : r < ledgers.length) :
    (ledgers.map Blockchain.get_chain_length).getD r 0
      = (ledgers.getD r Blockchain.init).get_chain_length := by
  rw [List.getD_eq_getElem _ _ (by simpa using hr), List.getD_eq_getElem _ _ hr,
    List.getElem_map]

theorem synchronize_ledgers_getD (ledgers : List Blockchain) (r : Nat)
    (hr : r < ledgers.length) :
    (synchronize_ledgers ledgers).getD r Blockchain.init
      = (if needSync (ledgers.map Blockchain.get_chain_length)
            ((ledgers.getD r Blockchain.init).get_chain_length) r
         then ledgers.headD (ledgers.getD r Blockchain.init)
         else ledgers.getD r Blockchain.init) := by
  unfold synchronize_ledgers
  rw [List.getD_eq_getElem _ _ (by simpa using hr), List.getElem_map, List.getElem_range]

theorem synchronize_ledgers_length (ledgers : List Blockchain) :
    (synchronize_ledgers ledgers).length = ledgers.length := by
  unfold synchronize_ledgers
  simp

/-- Claim C4: when the localRank-0 member's ledger length is the maximum
of the group's reported lengths, synchronize_ledgers leaves every member
with a ledger of that maximum length, and every member that was behind
has replaced its ledger wholesale with the authority's copy (rank 0's
ledger). -/
theorem synchronize_ledgers_equalizes (ledgers : List Blockchain)
    (hne : ledgers ≠ [])
    (hmax : ∀ l ∈ ledgers,
        l.get_chain_length ≤ (ledgers.headD Blockchain.init).get_chain_length) :
    (∀ bc ∈ synchronize_ledgers ledgers,
        bc.get_chain_length = (ledgers.headD Blockchain.init).get_chain_length)
      ∧ ∀ r, r < ledgers.length →
          (ledgers.getD r Blockchain.init).get_chain_length
              < (ledgers.headD Blockchain.init).get_chain_length →
          (synchronize_ledgers ledgers).getD r Blockchain.init
            = ledgers.headD Blockchain.init := by
  have hhead_mem : (ledgers.headD Blockchain.init).get_chain_length
      ∈ ledgers.map Blockchain.get_chain_length := by
    cases ledgers with
    | nil => exact absurd rfl hne
    | cons a t => simp [List.headD]
  have hmember : ∀ r, r < ledgers.length →
      ((synchronize_ledgers ledgers).getD r Blockchain.init).get_chain_length
        = (ledgers.headD Blockchain.init).get_chain_length := by
    intro r hr
    rw [synchronize_ledgers_getD ledgers r hr]
    by_cases hns : needSync (ledgers.map Blockchain.get_chain_length)
        ((ledgers.getD r Blockchain.init).get_chain_length) r
    · rw [if_pos hns]
      cases ledgers with
      | nil => exact absurd rfl hne
      | cons a t => rfl
    · rw [if_neg hns]
      have hall := needSync_false_imp_max (ledgers.map Blockchain.get_chain_length)
        ((ledgers.getD r Blockchain.init).get_chain_length) r
        (map_getD_len ledgers r hr) (by simpa using hns)
      have h1 := hall _ hhead_mem
      have hmem : ledgers.getD r Blockchain.init ∈ ledgers := by
        rw [List.getD_eq_getElem _ _ hr]
        exact List.getElem_mem hr
      have h2 := hmax _ hmem
      omega
  constructor
  · intro bc hbc
    obtain ⟨i, hi, hieq⟩ := List.mem_iff_getElem.mp hbc
    have hi' : i < ledgers.length := by
      rw [← synchronize_ledgers_length ledgers]
      exact hi
    have hv := hmember i hi'
    rw [List.getD_eq_getElem _ _ hi, hieq] at hv
    exact hv
  · intro r hr hlt
    rw [synchronize_ledgers_getD ledgers r hr,
      if_pos (needSync_true_of_lt (ledgers.map Blockchain.get_chain_length)
        ((ledgers.getD r Blockchain.init).get_chain_length) r
        (map_getD_len ledgers r hr)
        ⟨(ledgers.headD Blockchain.init).get_chain_length, hhead_mem, hlt⟩)]
    cases ledgers with
    | nil => exact absurd rfl hne
    | cons a t => rfl

/-- Closed instance of claim C4: a three-member group with lengths
3, 1, 3 whose rank-0 authority is longest ends with every member at
length 3. -/
theorem synchronize_ledgers_equalizes_witness :
    ledgers3 ≠ []
      ∧ (∀ l ∈ ledgers3,
          l.get_chain_length ≤ (ledgers3.headD Blockchain.init).get_chain_length)
      ∧ ∀ bc ∈ synchronize_ledgers ledgers3,
          bc.get_chain_length = (ledgers3.headD Blockchain.init).get_chain_length :=
  ⟨by decide, by decide,
    (synchronize_ledgers_equalizes ledgers3 (by decide) (by decide)).1⟩

/-- Claim C6, counterexample: the claim says configuration errors are
detected and the process exits before any collective operation.  With a
malformed argument count (argc = 2) the module-level Split and barrier
still execute — they run at import time, before main's check_cla — and
with a negative group count (-1, for which rank % -1 is 0) nothing is
detected at all: the process proceeds into the group protocol. -/
theorem collectives_run_before_argument_check :
    programTrace 0 3 2 = Except.ok [Event.split, Event.barrier, Event.usageMessage]
      ∧ Event.split ∈ [Event.split, Event.barrier, Event.usageMessage]
      ∧ programTrace 0 (-1) 3
          = Except.ok [Event.split, Event.barrier, Event.groupProtocol] :=
  ⟨rfl, by decide, rfl⟩

/-- Claim C6 as amended: a malformed argument count is reported to the
operator via the usage message and the process skips the group protocol
body, but only after the module-level Split and barrier collectives have
already run; a group count of 0 raises an uncaught ZeroDivisionError at
rank % numBlockchains, before the Split; a negative group count is not
detected (see the counterexample). -/
theorem usage_error_after_module_collectives (rank : Int) (argc : Nat) (h : argc ≠ 3) :
    programTrace rank 3 argc
        = Except.ok [Event.split, Event.barrier, Event.usageMessage]
      ∧ programTrace rank 0 argc = Except.error PyErr.zeroDivisionError := by
  constructor
  · unfold programTrace create_subcomm
    rw [if_neg (by omega : ¬(3 : Int) = 0)]
    simp [check_cla, h]
  · unfold programTrace create_subcomm
    rw [if_pos rfl]

/-- Closed instance of the amended claim C6 at argc = 2. -/
theorem usage_error_after_module_collectives_witness :
    (2 : Nat) ≠ 3
      ∧ programTrace 0 3 2 = Except.ok [Event.split, Event.barrier, Event.usageMessage] :=
  ⟨by decide, (usage_error_after_module_collectives 0 2 (by decide)).1⟩
